import Mathlib

/-!
Verification of the focus-resolution and span-compositing engine of the
`tuitorial` repository (`tuitorial/widgets.py`, `tuitorial/highlighting.py`).

The buffer is modelled as `List Char` (Python `str`, character offsets).
Offsets are modelled as `Nat`: every offset produced by a matcher is a
nonnegative character index.  Spans are `(start, end, style)` triples, with
`end` exclusive, exactly as in the source.

`rich.style.Style` is an opaque attribute bundle compared by value; the engine
never inspects it except to construct the background-dim style
`Style(dim=True)`.  It is modelled by `RStyle`, with `RStyle.dimBg` standing
for `Style(dim=True)` and `RStyle.mk` for any other value-compared bundle.
-/

namespace Tuitorial

/-- Model of `rich.style.Style`: an opaque attribute bundle with value
equality.  `dimBg` is the distinguished `Style(dim=True)` used by
`_apply_highlights` for background gaps; `mk c b` stands for any other
style value (the engine treats styles opaquely). -/
inductive RStyle where
  | dimBg : RStyle
  | mk (color : Nat) (bold : Bool) : RStyle
deriving DecidableEq, Repr

/-- A candidate span `(start, end, style)` as produced by the matchers of
`tuitorial/widgets.py` (`end` exclusive). -/
abbrev Sp := Nat × Nat × RStyle

/-- The interval `(start, end)` of a span, as stored in `processed_ranges`
by `_apply_highlights`. -/
def spInterval (sp : Sp) : Nat × Nat := (sp.1, sp.2.1)

/-- One styling call issued by `_apply_highlights` on the `rich.text.Text`
object: `gap s e` is `text.stylize(Style(dim=True), s, e)` (background dim
fill), `hl s e sty` is `text.stylize(style, s, e)` for an accepted span. -/
inductive Emit where
  | gap (s e : Nat) : Emit
  | hl (s e : Nat) (sty : RStyle) : Emit
deriving DecidableEq, Repr

/-- Start offset of an emitted styling call. -/
def Emit.lo : Emit → Nat
  | .gap s _ => s
  | .hl s _ _ => s

/-- End offset (exclusive) of an emitted styling call. -/
def Emit.hi : Emit → Nat
  | .gap _ e => e
  | .hl _ e _ => e

/-- Whether an emitted styling call is a background-dim gap fill. -/
def Emit.isGap : Emit → Bool
  | .gap _ _ => true
  | .hl _ _ _ => false

/-- Offset `i` is covered by the emitted span sequence. -/
def coveredE (out : List Emit) (i : Nat) : Prop :=
  ∃ x ∈ out, x.lo ≤ i ∧ i < x.hi

instance (out : List Emit) (i : Nat) : Decidable (coveredE out i) := by
  unfold coveredE; infer_instance

/-- Dim gaps do not overlap any other emitted span (accepted or dim): if one
of the two calls is a gap, their intervals are disjoint. -/
def gapDisjoint (a b : Emit) : Prop :=
  (a.isGap = true ∨ b.isGap = true) → (a.hi ≤ b.lo ∨ b.hi ≤ a.lo)

/-! ### Buffer splitting

`_collect_line_ranges` uses `code.split("\n")`; `_get_line_containing_matches`
and `_collect_startswith_ranges` use `code.splitlines(keepends=True)`.
`splitNl` models `str.split("\n")` exactly.  `splitKeep` models
`str.splitlines(keepends=True)` for buffers whose only line terminator is
`'\n'` (Python also splits on `'\r'`, `'\v'`, `'\f'` and a few Unicode
terminators; theorems over `splitKeep` therefore carry a `noExoticNl`
hypothesis). -/

/-- Characters other than `'\n'` that Python `str.splitlines` also treats as
line terminators. -/
def exoticNlChars : List Char :=
  ['\r', '\x0b', '\x0c', '\x1c', '\x1d', '\x1e', '\x85', '\u2028', '\u2029']

/-- The buffer uses no line terminator besides `'\n'`, so that `splitKeep`
agrees with Python `str.splitlines(keepends=True)`. -/
def noExoticNl (cs : List Char) : Prop := ∀ c ∈ cs, c ∉ exoticNlChars

instance (cs : List Char) : Decidable (noExoticNl cs) := by
  unfold noExoticNl; infer_instance

/-- Model of Python `code.split("\n")`. -/
def splitNl : List Char → List (List Char)
  | [] => [[]]
  | c :: rest =>
    if c = '\n' then [] :: splitNl rest
    else
      match splitNl rest with
      | [] => [[c]]
      | p :: ps => (c :: p) :: ps

/-- Model of Python `"\n".join(parts)`, the inverse of `splitNl`. -/
def joinNl : List (List Char) → List Char
  | [] => []
  | [p] => p
  | p :: q :: ps => p ++ '\n' :: joinNl (q :: ps)

/-- Model of Python `code.splitlines(keepends=True)` for `'\n'`-terminated
buffers: each line keeps its trailing `'\n'`; a final unterminated line is
kept as is; the empty buffer yields no lines. -/
def splitKeep : List Char → List (List Char)
  | [] => []
  | c :: rest =>
    if c = '\n' then ['\n'] :: splitKeep rest
    else
      match splitKeep rest with
      | [] => [[c]]
      | p :: ps => (c :: p) :: ps

/-! ### Matchers (`_collect_*_ranges` in `tuitorial/widgets.py`) -/

/-- Python `\w` on the ASCII inputs exercised here: letters, digits,
underscore. -/
def isWordChar (c : Char) : Bool := c.isAlphanum || c = '_'

/-- The regex word-boundary assertion `\b` holds at offset `i` of `code`:
exactly one side of the position is a word character. -/
def boundaryAt (code : List Char) (i : Nat) : Bool :=
  xor
    (decide (0 < i) && isWordChar (code.getD (i - 1) ' '))
    (decide (i < code.length) && isWordChar (code.getD i ' '))

/-- The literal pattern (after `re.escape`) matches `code` at offset `i`;
with `wb` the match is additionally wrapped in `\b ... \b` as in
`_collect_literal_ranges`. -/
def litMatchAt (pat code : List Char) (wb : Bool) (i : Nat) : Bool :=
  pat.isPrefixOf (code.drop i) &&
    (!wb || (boundaryAt code i && boundaryAt code (i + pat.length)))

/-- Left-to-right non-overlapping scan of `re.finditer` for a literal
pattern: after a match of length `n` the scan resumes at `i + n` (or `i + 1`
for an empty pattern).  `fuel` dominates the number of loop steps
(`code.length + 1` suffices since `i` strictly increases). -/
def litScan (pat code : List Char) (wb : Bool) : Nat → Nat → List Nat
  | 0, _ => []
  | fuel + 1, i =>
    if i ≤ code.length then
      if litMatchAt pat code wb i then
        i :: litScan pat code wb fuel (i + max pat.length 1)
      else
        litScan pat code wb fuel (i + 1)
    else []

/-- All match start offsets of `re.finditer(pattern, code)` for the escaped
literal `pat` (wrapped in `\b...\b` when `wb`), in discovery order. -/
def litOccs (pat code : List Char) (wb : Bool) : List Nat :=
  litScan pat code wb (code.length + 1) 0

/-- `LiteralFocus` of `tuitorial/highlighting.py`: fields `pattern`, `style`,
`word_boundary`, `match_index`.  `match_index` (an int or a list of ints in
the source) is modelled as an optional list of indices. -/
structure LiteralFocus where
  pattern : List Char
  style : RStyle
  wordBoundary : Bool
  matchIndex : Option (List Nat)
deriving DecidableEq, Repr

/-- `_collect_literal_ranges`: every `re.finditer` match of the escaped
pattern (with `\b` wrapping when `word_boundary`) yields a span
`(match.start(), match.end(), focus.style)`.  The source never reads
`focus.match_index` here. -/
def collectLiteralRanges (code : List Char) (f : LiteralFocus) : List Sp :=
  (litOccs f.pattern code f.wordBoundary).map fun i => (i, i + f.pattern.length, f.style)

/-- `LineFocus`: a 0-based line number and a style.  (Python also admits
negative line numbers, which fail the `0 <= line_number` test and yield no
span; they are not representable in `Nat` and not exercised by any claim.) -/
structure LineFocus where
  lineNumber : Nat
  style : RStyle
deriving DecidableEq, Repr

/-- Offset of the start of line `j`: sum of `len(line) + 1` over the
preceding `split("\n")` parts, as computed by `_collect_line_ranges`. -/
def nlStart (lines : List (List Char)) (j : Nat) : Nat :=
  ((lines.take j).map (fun l => l.length + 1)).sum

/-- `_collect_line_ranges`: split the buffer on `'\n'`; an in-range line
number yields the span of that line's content (trailing newline excluded);
an out-of-range line number yields no span. -/
def collectLineRanges (code : List Char) (f : LineFocus) : List Sp :=
  let lines := splitNl code
  if f.lineNumber < lines.length then
    let start := nlStart lines f.lineNumber
    [(start, start + (lines.getD f.lineNumber []).length, f.style)]
  else []

/-- `RangeFocus`: caller-supplied `start`/`end` offsets (field `end` renamed
`stop`, `end` being a Lean keyword) plus a style. -/
structure RangeFocus where
  start : Nat
  stop : Nat
  style : RStyle
deriving DecidableEq, Repr

/-- `_collect_range_ranges`: the caller-supplied pair is passed straight
through with no bounds validation. -/
def collectRangeRanges (_code : List Char) (f : RangeFocus) : List Sp :=
  [(f.start, f.stop, f.style)]

/-- The fragment of the `Focus` tagged union dispatched on by
`_collect_highlight_ranges` that the verified claims exercise. -/
inductive Focus where
  | literal (f : LiteralFocus)
  | line (f : LineFocus)
  | range (f : RangeFocus)
deriving DecidableEq, Repr

/-- Python `ranges.update(new)` on a value-equality `set`, modelled with the
first-insertion order as the canonical enumeration of the set's contents.
(The actual iteration order of a Python `set` is unspecified; theorems that
depend on the order quantify over permutations of this canonical list.) -/
def spanUnion (acc : List Sp) (new : List Sp) : List Sp :=
  new.foldl (fun a sp => if sp ∈ a then a else a ++ [sp]) acc

/-- `_collect_highlight_ranges`: union the candidate spans of every focus
into one deduplicated set (canonically enumerated in first-insertion
order). -/
def collectHighlightRanges (code : List Char) (focuses : List Focus) : List Sp :=
  focuses.foldl
    (fun acc f =>
      match f with
      | .literal lf => spanUnion acc (collectLiteralRanges code lf)
      | .line lf => spanUnion acc (collectLineRanges code lf)
      | .range rf => spanUnion acc (collectRangeRanges code rf))
    []

/-! ### Resolver: sort and overlap-acceptance sweep -/

/-- The comparison performed by `_sort_ranges`'s key
`(x[0], -(x[1] - x[0]))`: ascending start, then descending length.  Lengths
are compared as Python ints (`ℤ`), so a malformed span with `end < start`
keeps its negative length.  There is no third key. -/
def rangeLe (a b : Sp) : Prop :=
  a.1 < b.1 ∨ (a.1 = b.1 ∧ ((b.2.1 : Int) - (b.1 : Int) ≤ (a.2.1 : Int) - (a.1 : Int)))

instance : DecidableRel rangeLe := fun a b => by
  unfold rangeLe; infer_instance

instance : IsTotal Sp rangeLe where
  total a b := by
    rcases Nat.lt_trichotomy a.1 b.1 with h | h | h
    · exact Or.inl (Or.inl h)
    · rcases Int.le_total ((b.2.1 : Int) - (b.1 : Int)) ((a.2.1 : Int) - (a.1 : Int)) with
        h2 | h2
      · exact Or.inl (Or.inr ⟨h, h2⟩)
      · exact Or.inr (Or.inr ⟨h.symm, h2⟩)
    · exact Or.inr (Or.inl h)

instance : IsTrans Sp rangeLe where
  trans a b c hab hbc := by
    rcases hab with h1 | ⟨h1, h1'⟩ <;> rcases hbc with h2 | ⟨h2, h2'⟩
    · exact Or.inl (h1.trans h2)
    · exact Or.inl (h2 ▸ h1)
    · exact Or.inl (h1 ▸ h2)
    · exact Or.inr ⟨h1.trans h2, le_trans h2' h1'⟩

/-- `_sort_ranges`: Python's `sorted` is a stable sort by the two-component
key; insertion sort with the non-strict comparator `rangeLe` is stable and
therefore computes the same list for every input enumeration. -/
def sortRanges (l : List Sp) : List Sp := List.insertionSort rangeLe l

/-- `_is_overlapping`: a candidate `(s, e)` conflicts with the processed set
iff some processed interval fully contains it or is fully contained by it
(non-strict inequalities on both sides); partial overlaps do not conflict. -/
def isOverlapping (s e : Nat) (pr : List (Nat × Nat)) : Bool :=
  pr.any fun p => (decide (p.1 ≤ s) && decide (e ≤ p.2)) ||
    (decide (s ≤ p.1) && decide (p.2 ≤ e))

/-- Result of the `_apply_highlights` loop: the styling calls issued, the
final `current_pos`, and the final `processed_ranges` (in acceptance
order; the source keeps them in a set and only tests membership-like
containment, so the order is irrelevant to the loop). -/
structure HLOut where
  emitted : List Emit
  finalPos : Nat
  accepted : List (Nat × Nat)
deriving DecidableEq, Repr

/-- The loop of `_apply_highlights` over the sorted candidates, from loop
state `current_pos = cp`, `processed_ranges = pr`: an overlapping candidate
is skipped; otherwise a dim gap is emitted when `dim ∧ cp < start`, the
candidate's own span is emitted, `current_pos` becomes `max cp e`, and the
interval is added to `processed_ranges`. -/
def hlRun (dim : Bool) : Nat → List (Nat × Nat) → List Sp → HLOut
  | cp, pr, [] => ⟨[], cp, pr⟩
  | cp, pr, (s, e, sty) :: rest =>
    if isOverlapping s e pr then hlRun dim cp pr rest
    else
      let o := hlRun dim (max cp e) (pr ++ [(s, e)]) rest
      ⟨(if dim ∧ cp < s then [Emit.gap cp s] else []) ++ Emit.hl s e sty :: o.emitted,
        o.finalPos, o.accepted⟩

/-- `_apply_highlights`: run the sweep from `current_pos = 0` with an empty
processed set, then emit one final dim gap up to `len(code)` when
`dim_background` and text remains. -/
def applyHighlights (code : List Char) (sorted : List Sp) (dim : Bool) : List Emit :=
  let o := hlRun dim 0 [] sorted
  o.emitted ++ (if dim ∧ o.finalPos < code.length then [Emit.gap o.finalPos code.length] else [])

/-- The per-candidate accept/reject decision of the `_apply_highlights`
loop, in candidate order, starting from processed set `pr` (`true` =
accepted and added to `processed_ranges`, `false` = skipped). -/
def sweepFlags (pr : List (Nat × Nat)) : List Sp → List Bool
  | [] => []
  | (s, e, _) :: rest =>
    if isOverlapping s e pr then false :: sweepFlags pr rest
    else true :: sweepFlags (pr ++ [(s, e)]) rest

/-- `CodeDisplay.highlight_code` for a step without a Syntax focus: collect,
sort, sweep and composite.  `iter` is the enumeration of the candidate set
handed to `sorted` (Python set iteration order); the canonical choice is
`collectHighlightRanges code focuses` itself. -/
def highlightCode (code : List Char) (iter : List Sp) (dim : Bool) : List Emit :=
  applyHighlights code (sortRanges iter) dim

/-! ### `_get_line_containing_matches` -/

/-- Default span for list lookups. -/
def dSp : Sp := (0, 0, RStyle.dimBg)

/-- Offset of the start of kept-terminator line `b` (equivalently, the
offset just past lines `0 .. b-1` including their terminators):
`sum(len(l) for l in lines[:b])` over `splitlines(keepends=True)` lines,
as computed by `_get_line_containing_matches`. -/
def keepStart (text : List Char) (b : Nat) : Nat :=
  (((splitKeep text).take b).map List.length).sum

/-- The match loop of `_get_line_containing_matches`: for every line
(split with terminators kept) satisfying the match test, emit the offset
span of the context window `[i - lines_before, i + lines_after]` clamped to
the buffer, offsets summed over the kept-terminator lines.  The per-line
test (`pattern in line` for the literal variant, `re.search(pattern, line)`
for the regex variant) is passed in as `matchLine`. -/
def lineWindows (matchLine : List Char → Bool) (linesBefore linesAfter : Nat)
    (text : List Char) : List (Nat × Nat) :=
  (List.range (splitKeep text).length).filterMap fun i =>
    if matchLine ((splitKeep text).getD i []) then
      some (keepStart text (i - linesBefore),
        keepStart text (min (splitKeep text).length (i + linesAfter + 1)))
    else none

/-- `_get_line_containing_matches`: all window spans, then `match_index`
selection (an in-range index keeps only that window; an out-of-range one
keeps nothing). -/
def lineContainingMatches (matchLine : List Char → Bool) (linesBefore linesAfter : Nat)
    (matchIndex : Option Nat) (text : List Char) : List (Nat × Nat) :=
  let ms := lineWindows matchLine linesBefore linesAfter text
  match matchIndex with
  | some k => if k < ms.length then [ms.getD k (0, 0)] else []
  | none => ms

/-- The line ends with a `'\n'` terminator. -/
def endsWithNl (l : List Char) : Bool := l.getLast? == some '\n'

/-! ### Construction-time vs render-time pattern compilation
(`Focus.regex` in `tuitorial/highlighting.py`, `_collect_between_ranges` and
`_get_line_containing_matches` in `tuitorial/widgets.py`) -/

/-- Modelled from the spec: success of the Python standard-library
`re.compile` (not part of this repository's sources), restricted to the
failure mode exercised here — an unbalanced group, e.g. the pattern `"("`,
raises `re.error` ("missing ), unterminated subpattern").  Backslash-escaped
parentheses do not open or close groups. -/
def parenDepthOk : List Char → Nat → Bool
  | [], 0 => true
  | [], _ + 1 => false
  | '\\' :: _ :: rest, d => parenDepthOk rest d
  | '(' :: rest, d => parenDepthOk rest (d + 1)
  | ')' :: _, 0 => false
  | ')' :: rest, d + 1 => parenDepthOk rest d
  | _ :: rest, d => parenDepthOk rest d

/-- Modelled from the spec: `re.compile(p)` succeeds. -/
def reCompileOk (p : List Char) : Bool := parenDepthOk p 0

/-- A pattern-compilation error; Python's `re.error` carries the offending
pattern in its `pattern` attribute. -/
structure ReErr where
  pattern : List Char
deriving DecidableEq, Repr

/-- A compiled-regex focus as returned by `Focus.regex`. -/
structure RegexFocus where
  pattern : List Char
  style : RStyle
deriving DecidableEq, Repr

/-- `Focus.regex` (highlighting.py lines 163-181): a string pattern is
compiled with `re.compile` at construction time, so an invalid pattern
fails here, before any rendering. -/
def focusRegex (p : List Char) (sty : RStyle) : Except ReErr RegexFocus :=
  if reCompileOk p then .ok ⟨p, sty⟩ else .error ⟨p⟩

/-- The characters escaped by Python `re.escape` (Python ≥ 3.7: ASCII
letters, digits and `'_'` are never escaped; exactly the regex
metacharacters and whitespace below are). -/
def reEscapeChars : List Char :=
  ['(', ')', '[', ']', '{', '}', '?', '*', '+', '-', '|', '^', '$', '\\', '.', '&',
    '~', '#', ' ', '\t', '\n', '\r', '\x0b', '\x0c']

/-- Model of Python `re.escape`. -/
def reEscape (s : List Char) : List Char :=
  s.foldr (fun c acc => (if c ∈ reEscapeChars then ['\\', c] else [c]) ++ acc) []

/-- The metacharacter test of `_collect_between_ranges`:
`any(c in pattern for c in ".^$*+?{}[]\\|()")`. -/
def reMetaChars : List Char :=
  ['.', '^', '$', '*', '+', '?', '{', '}', '[', ']', '\\', '|', '(', ')']

/-- A pattern "already contains regex metacharacters" and is therefore not
escaped by `_collect_between_ranges`. -/
def hasRegexMeta (s : List Char) : Bool := s.any (· ∈ reMetaChars)

/-- `BetweenFocus`: the construction stores the two raw pattern strings
unchanged (no compilation happens in `Focus.between`); `end_pattern` is
renamed `stopPattern` (`end` is a Lean keyword). -/
structure BetweenFocus where
  startPattern : List Char
  stopPattern : List Char
  inclusive : Bool
  multiline : Bool
  matchIndex : Option Nat
  greedy : Bool
  style : RStyle
deriving DecidableEq, Repr

/-- The combined pattern built at render time by `_collect_between_ranges`:
each delimiter is `re.escape`d unless it already contains a metacharacter;
the body quantifier is `.*` (greedy) or `.*?`; inclusive mode captures the
delimiters, exclusive mode uses lookaround assertions. -/
def betweenBuiltPattern (f : BetweenFocus) : List Char :=
  let sp := if hasRegexMeta f.startPattern then f.startPattern else reEscape f.startPattern
  let ep := if hasRegexMeta f.stopPattern then f.stopPattern else reEscape f.stopPattern
  let q : List Char := if f.greedy then ['.', '*'] else ['.', '*', '?']
  if f.inclusive then
    ['('] ++ sp ++ [')', '('] ++ q ++ [')', '('] ++ ep ++ [')']
  else
    ['(', '?', '<', '='] ++ sp ++ [')', '('] ++ q ++ [')', '(', '?', '='] ++ ep ++ [')']

/-- The pattern compilation performed at render time inside
`_collect_between_ranges` (by `re.finditer` on the built pattern); the
match enumeration itself is not modelled. -/
def betweenRenderCompile (f : BetweenFocus) : Except ReErr Unit :=
  if reCompileOk (betweenBuiltPattern f) then .ok () else .error ⟨betweenBuiltPattern f⟩

/-- `LineContainingRegexFocus`: construction stores the raw pattern string
(no compilation happens in `Focus.line_containing`). -/
structure LineContainingRegexFocus where
  pattern : List Char
  linesBefore : Nat
  linesAfter : Nat
  matchIndex : Option Nat
  style : RStyle
deriving DecidableEq, Repr

/-- The pattern compilation performed at render time inside
`_get_line_containing_matches` (by `re.search(pattern, line)`). -/
def lineContainingRenderCompile (f : LineContainingRegexFocus) : Except ReErr Unit :=
  if reCompileOk f.pattern then .ok () else .error ⟨f.pattern⟩

/-- Whether an `Except` result is a success. -/
def exceptOk {ε α : Type} : Except ε α → Bool
  | .ok _ => true
  | .error _ => false

/-! ### Spec-side three-key sort (for comparison with `_sort_ranges`) -/

/-- Written from the spec's words, not from the source: the three-key order
"(a) ascending start; (b) descending span length; (c) original
focus-declaration order", on candidates paired with their declaration
index. -/
def threeKeyLe (a b : Nat × Sp) : Prop :=
  a.2.1 < b.2.1 ∨ (a.2.1 = b.2.1 ∧
    (((b.2.2.1 : Int) - (b.2.1 : Int)) < ((a.2.2.1 : Int) - (a.2.1 : Int)) ∨
      (((a.2.2.1 : Int) - (a.2.1 : Int)) = ((b.2.2.1 : Int) - (b.2.1 : Int)) ∧ a.1 ≤ b.1)))

instance : DecidableRel threeKeyLe := fun a b => by
  unfold threeKeyLe; infer_instance

/-- Written from the spec's words: sort the declaration-ordered candidate
list by the three-key order. -/
def specThreeKeySort (declOrdered : List Sp) : List Sp :=
  (List.insertionSort threeKeyLe declOrdered.enum).map Prod.snd

/-! ### Helper lemmas about `splitNl` -/

theorem splitNl_ne_nil (cs : List Char) : splitNl cs ≠ [] := by
  cases cs with
  | nil => simp [splitNl]
  | cons c rest =>
    simp only [splitNl]
    split
    · simp
    · split <;> simp

theorem splitNl_len (cs : List Char) :
    ((splitNl cs).map (fun l => l.length + 1)).sum = cs.length + 1 := by
  induction cs with
  | nil => simp [splitNl]
  | cons c rest ih =>
    simp only [splitNl]
    split
    · simp only [List.map_cons, List.sum_cons, List.length_nil, List.length_cons]
      omega
    · cases h : splitNl rest with
      | nil => exact absurd h (splitNl_ne_nil rest)
      | cons p ps =>
        rw [h] at ih
        simp only [h, List.map_cons, List.sum_cons, List.length_cons] at ih ⊢
        omega

theorem nlStart_add_len_le {cs : List Char} {j : Nat} (h : j < (splitNl cs).length) :
    nlStart (splitNl cs) j + ((splitNl cs).getD j []).length ≤ cs.length := by
  have hsum := splitNl_len cs
  have hsucc : (splitNl cs).take (j + 1) =
      (splitNl cs).take j ++ [(splitNl cs).getD j []] := by
    rw [List.take_succ]
    simp [List.getElem?_eq_getElem h, List.getD_eq_getElem _ _ h]
  have hle : (((splitNl cs).take (j + 1)).map (fun l => l.length + 1)).sum ≤
      ((splitNl cs).map (fun l => l.length + 1)).sum := by
    conv_rhs => rw [← List.take_append_drop (j + 1) (splitNl cs)]
    rw [List.map_append, List.sum_append]
    exact Nat.le_add_right _ _
  rw [hsucc, List.map_append, List.sum_append] at hle
  simp only [List.map_cons, List.sum_cons, List.map_nil, List.sum_nil] at hle
  rw [hsum] at hle
  unfold nlStart
  omega

/-! ### Claim theorems (first group) -/

/-- C1: in the overlap-acceptance sweep of `_apply_highlights`, a candidate
span is rejected iff it is in a pure containment relationship with some
already-accepted interval (candidate inside an accepted interval, or an
accepted interval inside the candidate); a candidate that only partially
overlaps is accepted.  In particular, for buffer `"[i]"` with focuses
`Literal("[i]")` and `Literal("i")`, exactly the single span `(0, 3)` is
accepted. -/
theorem C1_sweep_containment :
    (∀ (pr : List (Nat × Nat)) (s e : Nat),
      isOverlapping s e pr = true ↔
        ∃ p ∈ pr, (p.1 ≤ s ∧ e ≤ p.2) ∨ (s ≤ p.1 ∧ p.2 ≤ e)) ∧
    (∀ (pr : List (Nat × Nat)) (s e : Nat) (sty : RStyle) (rest : List Sp),
      (sweepFlags pr ((s, e, sty) :: rest)).getD 0 true = false ↔
        ∃ p ∈ pr, (p.1 ≤ s ∧ e ≤ p.2) ∨ (s ≤ p.1 ∧ p.2 ≤ e)) ∧
    (hlRun true 0 [] (sortRanges (collectHighlightRanges "[i]".toList
        [.literal ⟨"[i]".toList, RStyle.mk 0 true, false, none⟩,
         .literal ⟨"i".toList, RStyle.mk 1 true, false, none⟩]))).accepted = [(0, 3)] := by
  refine ⟨?_, ?_, by decide⟩
  · intro pr s e
    simp [isOverlapping, List.any_eq_true]
  · intro pr s e sty rest
    by_cases h : isOverlapping s e pr
    · simp only [sweepFlags, if_pos h, List.getD_cons_zero, true_iff]
      simpa [isOverlapping, List.any_eq_true] using h
    · simp only [sweepFlags, if_neg h, List.getD_cons_zero]
      constructor
      · intro habs; simp at habs
      · intro hc
        refine absurd ?_ h
        simpa [isOverlapping, List.any_eq_true] using hc

/-- C3: contrary to the claim (and to the `match_index` documentation of
`Focus.literal`), `_collect_literal_ranges` never reads `match_index`: the
collected spans are identical for every value of the field, and for buffer
`"aaa"` with `Literal("a", match_index=[0])` all three occurrences are
kept instead of only the first. -/
theorem C3_match_index_ignored :
    (∀ (code pat : List Char) (sty : RStyle) (wb : Bool) (mi mi' : Option (List Nat)),
      collectLiteralRanges code ⟨pat, sty, wb, mi⟩ =
        collectLiteralRanges code ⟨pat, sty, wb, mi'⟩) ∧
    collectLiteralRanges "aaa".toList ⟨"a".toList, RStyle.mk 0 true, false, some [0]⟩ =
      [(0, 1, RStyle.mk 0 true), (1, 2, RStyle.mk 0 true), (2, 3, RStyle.mk 0 true)] :=
  ⟨fun _ _ _ _ _ _ => rfl, by decide⟩

/-- C4 (counterexample): `_sort_ranges` has no third sort key.  For buffer
`"a"` with two literal focuses declared styles `mk 0` then `mk 1`, the
deduplicated candidate set is `[(0,1,mk 0), (0,1,mk 1)]` in declaration
order; enumerating the set in the reversed (equally admissible) iteration
order and sorting with the code's two-part key leaves the reversed order
in place, which differs from the spec's three-key order. -/
theorem C4_counterexample :
    collectHighlightRanges "a".toList
        [.literal ⟨"a".toList, RStyle.mk 0 true, false, none⟩,
         .literal ⟨"a".toList, RStyle.mk 1 true, false, none⟩] =
      [(0, 1, RStyle.mk 0 true), (0, 1, RStyle.mk 1 true)] ∧
    List.Perm [(0, 1, RStyle.mk 1 true), (0, 1, RStyle.mk 0 true)]
      [(0, 1, RStyle.mk 0 true), (0, 1, RStyle.mk 1 true)] ∧
    sortRanges [(0, 1, RStyle.mk 1 true), (0, 1, RStyle.mk 0 true)] =
      [(0, 1, RStyle.mk 1 true), (0, 1, RStyle.mk 0 true)] ∧
    specThreeKeySort [(0, 1, RStyle.mk 0 true), (0, 1, RStyle.mk 1 true)] =
      [(0, 1, RStyle.mk 0 true), (0, 1, RStyle.mk 1 true)] ∧
    ([(0, 1, RStyle.mk 1 true), (0, 1, RStyle.mk 0 true)] : List Sp) ≠
      [(0, 1, RStyle.mk 0 true), (0, 1, RStyle.mk 1 true)] := by
  refine ⟨by decide, by decide, by decide, by decide, by decide⟩

/-- C4 (amended): `_sort_ranges` sorts the candidate enumeration by the
two-part key (ascending start, then descending length) only; it is a
permutation of its input and sorted for `rangeLe`, and exact ties keep
their enumeration order (stable sort), which is the set-iteration order,
not the focus-declaration order. -/
theorem C4_two_key_sort :
    ∀ l : List Sp, (sortRanges l).Perm l ∧ List.Sorted rangeLe (sortRanges l) :=
  fun l => ⟨List.perm_insertionSort rangeLe l, List.sorted_insertionSort rangeLe l⟩

/-- C5 (counterexample): the engine does not reject a malformed `Range`
focus.  For buffer `"abc"` (length 3) and `Range(5, 9)`, the out-of-bounds
span `(5, 9)` is carried through collection, sort, sweep and compositing
unchanged and is emitted (preceded by a dim gap reaching past the buffer
end). -/
theorem C5_counterexample :
    applyHighlights "abc".toList (sortRanges (collectHighlightRanges "abc".toList
        [.range ⟨5, 9, RStyle.mk 0 true⟩])) true =
      [Emit.gap 0 5, Emit.hl 5 9 (RStyle.mk 0 true)] ∧
    "abc".toList.length < 9 ∧ "abc".toList.length < 5 := by
  refine ⟨by decide, by decide, by decide⟩

/-- C5 (amended): `_collect_range_ranges` passes the caller-supplied bounds
straight through with no validation, and the sweep accepts the resulting
span like any other: for every buffer and every `Range(start, end)` focus
(malformed or not), the span `(start, end, style)` appears verbatim in the
engine's emitted output. -/
theorem C5_range_no_validation :
    ∀ (code : List Char) (s e : Nat) (sty : RStyle) (dim : Bool),
      Emit.hl s e sty ∈
        applyHighlights code (sortRanges (collectHighlightRanges code
          [.range ⟨s, e, sty⟩])) dim := by
  intro code s e sty dim
  have hc : collectHighlightRanges code [.range ⟨s, e, sty⟩] = [(s, e, sty)] := by
    simp [collectHighlightRanges, collectRangeRanges, spanUnion]
  rw [hc]
  have hs : sortRanges [(s, e, sty)] = [(s, e, sty)] := by
    simp [sortRanges]
  rw [hs]
  have hov : isOverlapping s e [] = false := rfl
  simp only [applyHighlights, hlRun, hov, Bool.false_eq_true, if_false, reduceIte]
  simp

/-- C6 (counterexample): an invalid regular expression supplied as the
`start_pattern` of a `Between` focus does not fail at Focus-construction
time — `Focus.between` stores the raw strings and never touches the regex
engine — and the compilation failure instead surfaces at render time, when
`_collect_between_ranges` builds and compiles the combined pattern
`"(()(.*?)(>)"`. -/
theorem C6_counterexample :
    betweenRenderCompile ⟨"(".toList, ">".toList, true, true, none, false, RStyle.mk 0 true⟩ =
      Except.error ⟨"(()(.*?)(>)".toList⟩ ∧
    reCompileOk "(".toList = false := by
  refine ⟨rfl, by decide⟩

/-- C6 (amended): only the `Regex` focus compiles its pattern at
construction time (`Focus.regex` calls `re.compile`, so an invalid pattern
fails there with an error carrying the offending pattern); `Between` and
`LineContainingRegex` focuses store raw pattern strings at construction,
which always succeeds, and their pattern-compilation outcome is decided
only at render (matching) time. -/
theorem C6_compile_timing :
    (∀ (p : List Char) (sty : RStyle), reCompileOk p = false →
      focusRegex p sty = Except.error ⟨p⟩) ∧
    (∀ (p : List Char) (sty : RStyle), reCompileOk p = true →
      focusRegex p sty = Except.ok ⟨p, sty⟩) ∧
    (∀ f : BetweenFocus,
      exceptOk (betweenRenderCompile f) = reCompileOk (betweenBuiltPattern f)) ∧
    (∀ f : LineContainingRegexFocus,
      exceptOk (lineContainingRenderCompile f) = reCompileOk f.pattern) := by
  refine ⟨?_, ?_, ?_, ?_⟩
  · intro p sty h; simp [focusRegex, h]
  · intro p sty h; simp [focusRegex, h]
  · intro f
    by_cases h : reCompileOk (betweenBuiltPattern f) <;>
      simp [betweenRenderCompile, h, exceptOk]
  · intro f
    by_cases h : reCompileOk f.pattern <;>
      simp [lineContainingRenderCompile, h, exceptOk]

/-- Witness for `C6_compile_timing` at concrete patterns `"("` (invalid)
and `"a"` (valid). -/
theorem C6_compile_timing_witness :
    reCompileOk "(".toList = false ∧
    focusRegex "(".toList (RStyle.mk 0 true) = Except.error ⟨"(".toList⟩ ∧
    reCompileOk "a".toList = true ∧
    focusRegex "a".toList (RStyle.mk 0 true) =
      Except.ok ⟨"a".toList, RStyle.mk 0 true⟩ :=
  ⟨by decide, C6_compile_timing.1 _ _ (by decide), by decide,
    C6_compile_timing.2.1 _ _ (by decide)⟩

/-- C7 (counterexample): the span invariant `start < end` fails: a `Line`
focus naming the trailing empty line of a buffer that ends in a newline
produces the empty span `(2, 2)` for buffer `"a\n"`. -/
theorem C7_counterexample :
    collectLineRanges "a\n".toList ⟨1, RStyle.mk 0 true⟩ = [(2, 2, RStyle.mk 0 true)] ∧
    ¬ (2 < 2) := by
  refine ⟨by decide, by decide⟩

/-- C7 (amended): every span produced by the `Line` matcher satisfies
`0 ≤ start ≤ end ≤ len(buffer)` — with equality `start = end` possible
(empty line), so `start < end` does not hold in general. -/
theorem C7_line_span_bounds :
    ∀ (code : List Char) (f : LineFocus) (sp : Sp),
      sp ∈ collectLineRanges code f → sp.1 ≤ sp.2.1 ∧ sp.2.1 ≤ code.length := by
  intro code f sp hsp
  unfold collectLineRanges at hsp
  by_cases h : f.lineNumber < (splitNl code).length
  · simp only [h, if_pos, List.mem_singleton] at hsp
    subst hsp
    refine ⟨Nat.le_add_right _ _, ?_⟩
    exact nlStart_add_len_le h
  · simp [h] at hsp

/-- Witness for `C7_line_span_bounds`: for buffer `"ab\ncd"`, line 1
produces the span `(3, 5)` with `3 ≤ 5 ≤ 5`. -/
theorem C7_line_span_bounds_witness :
    (3, 5, RStyle.mk 0 true) ∈ collectLineRanges "ab\ncd".toList ⟨1, RStyle.mk 0 true⟩ ∧
    (3 ≤ 5 ∧ 5 ≤ "ab\ncd".toList.length) :=
  ⟨by decide, C7_line_span_bounds "ab\ncd".toList ⟨1, RStyle.mk 0 true⟩
    (3, 5, RStyle.mk 0 true) (by decide)⟩

/-! ### Helper lemmas about the sweep -/

theorem isOverlapping_append_left {s e : Nat} {pr : List (Nat × Nat)}
    (q : List (Nat × Nat)) (h : isOverlapping s e pr = true) :
    isOverlapping s e (pr ++ q) = true := by
  simp only [isOverlapping, List.any_eq_true] at h ⊢
  obtain ⟨p, hp, hc⟩ := h
  exact ⟨p, List.mem_append_left q hp, hc⟩

theorem isOverlapping_of_mem {s e : Nat} {pr : List (Nat × Nat)}
    (h : (s, e) ∈ pr) : isOverlapping s e pr = true := by
  simp only [isOverlapping, List.any_eq_true]
  exact ⟨(s, e), h, by simp⟩

/-- Once the processed set contains an interval in containment relation with
`(s, e)`, every later candidate with interval exactly `(s, e)` is rejected
(the processed set only grows during the sweep). -/
theorem sweepFlags_rejected_of_overlap :
    ∀ (l : List Sp) (pr : List (Nat × Nat)) (s e : Nat),
      isOverlapping s e pr = true →
      ∀ k, k < l.length → spInterval (l.getD k dSp) = (s, e) →
        (sweepFlags pr l).getD k true = false := by
  intro l
  induction l with
  | nil => intro pr s e _ k hk; simp at hk
  | cons x rest ih =>
    intro pr s e hov k hk hint
    obtain ⟨s0, e0, sty0⟩ := x
    by_cases hx : isOverlapping s0 e0 pr
    · cases k with
      | zero => simp [sweepFlags, hx]
      | succ k' =>
        simp only [sweepFlags, if_pos hx, List.getD_cons_succ]
        exact ih pr s e hov k' (by simpa using hk) (by simpa using hint)
    · cases k with
      | zero =>
        exfalso
        simp only [List.getD_cons_zero, spInterval] at hint
        have h1 : s0 = s := congrArg Prod.fst hint
        have h2 : e0 = e := congrArg Prod.snd hint
        subst h1; subst h2
        exact hx hov
      | succ k' =>
        simp only [sweepFlags, if_neg hx, List.getD_cons_succ]
        exact ih (pr ++ [(s0, e0)]) s e (isOverlapping_append_left _ hov) k'
          (by simpa using hk) (by simpa using hint)

/-- C9: because `_is_overlapping` uses non-strict inequalities, an interval
equal to an already-accepted interval counts as contained: of two candidates
with identical `(start, end)` (in particular, equal intervals with
different styles), the sweep rejects every one after the first, so at most
one is painted — the first-encountered. -/
theorem C9_equal_interval_once :
    ∀ (pr : List (Nat × Nat)) (l : List Sp) (i j : Nat),
      i < j → j < l.length →
      spInterval (l.getD i dSp) = spInterval (l.getD j dSp) →
      (sweepFlags pr l).getD j true = false := by
  intro pr l
  induction l generalizing pr with
  | nil => intro i j _ hj; simp at hj
  | cons x rest ih =>
    intro i j hij hj hint
    obtain ⟨s0, e0, sty0⟩ := x
    cases j with
    | zero => omega
    | succ j' =>
      cases i with
      | zero =>
        simp only [List.getD_cons_zero, List.getD_cons_succ, spInterval] at hint
        by_cases hx : isOverlapping s0 e0 pr
        · simp only [sweepFlags, if_pos hx, List.getD_cons_succ]
          exact sweepFlags_rejected_of_overlap rest pr s0 e0 hx j'
            (by simpa using hj) (by simpa [spInterval] using hint.symm)
        · simp only [sweepFlags, if_neg hx, List.getD_cons_succ]
          exact sweepFlags_rejected_of_overlap rest (pr ++ [(s0, e0)]) s0 e0
            (isOverlapping_of_mem (by simp)) j'
            (by simpa using hj) (by simpa [spInterval] using hint.symm)
      | succ i' =>
        simp only [List.getD_cons_succ] at hint
        by_cases hx : isOverlapping s0 e0 pr
        · simp only [sweepFlags, if_pos hx, List.getD_cons_succ]
          exact ih pr i' j' (by omega) (by simpa using hj) hint
        · simp only [sweepFlags, if_neg hx, List.getD_cons_succ]
          exact ih (pr ++ [(s0, e0)]) i' j' (by omega) (by simpa using hj) hint

/-- Witness for `C9_equal_interval_once`: two candidates with interval
`(0, 1)` and different styles — the second is rejected. -/
theorem C9_equal_interval_once_witness :
    (0 : Nat) < 1 ∧
    1 < ([(0, 1, RStyle.mk 0 true), (0, 1, RStyle.mk 1 true)] : List Sp).length ∧
    spInterval (([(0, 1, RStyle.mk 0 true), (0, 1, RStyle.mk 1 true)] : List Sp).getD 0 dSp) =
      spInterval (([(0, 1, RStyle.mk 0 true), (0, 1, RStyle.mk 1 true)] : List Sp).getD 1 dSp) ∧
    (sweepFlags [] [(0, 1, RStyle.mk 0 true), (0, 1, RStyle.mk 1 true)]).getD 1 true = false :=
  ⟨by decide, by decide, by decide,
    C9_equal_interval_once [] [(0, 1, RStyle.mk 0 true), (0, 1, RStyle.mk 1 true)] 0 1
      (by decide) (by decide) (by decide)⟩

/-! ### Invariants of the `_apply_highlights` loop -/

instance : ∀ a b : Emit, Decidable (gapDisjoint a b) := fun a b => by
  unfold gapDisjoint; infer_instance

theorem hlRun_finalPos_mono (dim : Bool) :
    ∀ (l : List Sp) (cp : Nat) (pr : List (Nat × Nat)),
      cp ≤ (hlRun dim cp pr l).finalPos := by
  intro l
  induction l with
  | nil => intro cp pr; simp [hlRun]
  | cons x rest ih =>
    intro cp pr
    obtain ⟨s, e, sty⟩ := x
    by_cases hx : isOverlapping s e pr
    · simpa [hlRun, hx] using ih cp pr
    · simp only [hlRun, if_neg hx]
      exact le_trans (le_max_left cp e) (ih (max cp e) (pr ++ [(s, e)]))

theorem hlRun_finalPos_le (dim : Bool) :
    ∀ (l : List Sp) (cp : Nat) (pr : List (Nat × Nat)) (N : Nat),
      (∀ sp ∈ l, sp.2.1 ≤ N) → cp ≤ N → (hlRun dim cp pr l).finalPos ≤ N := by
  intro l
  induction l with
  | nil => intro cp pr N _ hcp; simpa [hlRun] using hcp
  | cons x rest ih =>
    intro cp pr N hN hcp
    obtain ⟨s, e, sty⟩ := x
    have he : e ≤ N := hN (s, e, sty) (List.mem_cons_self _ _)
    have hrest : ∀ sp ∈ rest, sp.2.1 ≤ N := fun sp hsp => hN sp (List.mem_cons_of_mem _ hsp)
    by_cases hx : isOverlapping s e pr
    · simpa [hlRun, hx] using ih cp pr N hrest hcp
    · simp only [hlRun, if_neg hx]
      exact ih (max cp e) (pr ++ [(s, e)]) N hrest (max_le hcp he)

theorem hlRun_emitted_hi_le (dim : Bool) :
    ∀ (l : List Sp) (cp : Nat) (pr : List (Nat × Nat)),
      (∀ sp ∈ l, sp.1 ≤ sp.2.1) →
      ∀ x ∈ (hlRun dim cp pr l).emitted, x.hi ≤ (hlRun dim cp pr l).finalPos := by
  intro l
  induction l with
  | nil => intro cp pr _ x hx; simp [hlRun] at hx
  | cons sp rest ih =>
    intro cp pr hwf x hx
    obtain ⟨s, e, sty⟩ := sp
    have hse : s ≤ e := hwf (s, e, sty) (List.mem_cons_self _ _)
    have hrest : ∀ sp ∈ rest, sp.1 ≤ sp.2.1 := fun sp hsp => hwf sp (List.mem_cons_of_mem _ hsp)
    by_cases hov : isOverlapping s e pr
    · simp only [hlRun, if_pos hov] at hx ⊢
      exact ih cp pr hrest x hx
    · simp only [hlRun, if_neg hov] at hx ⊢
      have hfp : max cp e ≤ (hlRun dim (max cp e) (pr ++ [(s, e)]) rest).finalPos :=
        hlRun_finalPos_mono dim rest (max cp e) (pr ++ [(s, e)])
      rcases List.mem_append.mp hx with hgap | hrest'
      · have : x = Emit.gap cp s := by
          by_cases hc : dim ∧ cp < s
          · simpa [hc] using hgap
          · simp [hc] at hgap
        subst this
        have : s ≤ max cp e := le_trans hse (le_max_right cp e)
        simpa [Emit.hi] using le_trans this hfp
      · rcases List.mem_cons.mp hrest' with hhl | hmem
        · subst hhl
          simpa [Emit.hi] using le_trans (le_trans (le_max_right cp e) hfp) (le_refl _)
        · exact ih (max cp e) (pr ++ [(s, e)]) hrest x hmem

theorem hlRun_covers :
    ∀ (l : List Sp) (cp : Nat) (pr : List (Nat × Nat)),
      (∀ sp ∈ l, sp.1 ≤ sp.2.1) →
      ∀ i, cp ≤ i → i < (hlRun true cp pr l).finalPos →
        coveredE (hlRun true cp pr l).emitted i := by
  intro l
  induction l with
  | nil =>
    intro cp pr _ i hcp hi
    simp only [hlRun] at hi
    omega
  | cons sp rest ih =>
    intro cp pr hwf i hcp hi
    obtain ⟨s, e, sty⟩ := sp
    have hse : s ≤ e := hwf (s, e, sty) (List.mem_cons_self _ _)
    have hrest : ∀ sp ∈ rest, sp.1 ≤ sp.2.1 := fun sp hsp => hwf sp (List.mem_cons_of_mem _ hsp)
    by_cases hov : isOverlapping s e pr
    · simp only [hlRun, if_pos hov] at hi ⊢
      exact ih cp pr hrest i hcp hi
    · simp only [hlRun, if_neg hov] at hi ⊢
      by_cases hrec : max cp e ≤ i
      · obtain ⟨x, hxm, hxc⟩ := ih (max cp e) (pr ++ [(s, e)]) hrest i hrec hi
        exact ⟨x, List.mem_append_right _ (List.mem_cons_of_mem _ hxm), hxc⟩
      · push_neg at hrec
        by_cases hcs : cp < s
        · by_cases his : i < s
          · refine ⟨Emit.gap cp s, ?_, by simpa [Emit.lo] using hcp, by simpa [Emit.hi] using his⟩
            exact List.mem_append_left _ (by simp [hcs])
          · push_neg at his
            refine ⟨Emit.hl s e sty, List.mem_append_right _ (List.mem_cons_self _ _),
              by simpa [Emit.lo] using his, ?_⟩
            simp only [Emit.hi]
            omega
        · push_neg at hcs
          refine ⟨Emit.hl s e sty, List.mem_append_right _ (List.mem_cons_self _ _),
            by simp only [Emit.lo]; omega, by simp only [Emit.hi]; omega⟩

theorem hlRun_gap_lo (dim : Bool) :
    ∀ (l : List Sp) (cp : Nat) (pr : List (Nat × Nat)) (a b : Nat),
      Emit.gap a b ∈ (hlRun dim cp pr l).emitted → cp ≤ a := by
  intro l
  induction l with
  | nil => intro cp pr a b h; simp [hlRun] at h
  | cons sp rest ih =>
    intro cp pr a b h
    obtain ⟨s, e, sty⟩ := sp
    by_cases hov : isOverlapping s e pr
    · simp only [hlRun, if_pos hov] at h
      exact ih cp pr a b h
    · simp only [hlRun, if_neg hov] at h
      rcases List.mem_append.mp h with hgap | hrest'
      · by_cases hc : dim ∧ cp < s
        · simp only [if_pos hc, List.mem_singleton] at hgap
          cases hgap
          exact le_refl _
        · simp [hc] at hgap
      · rcases List.mem_cons.mp hrest' with hhl | hmem
        · cases hhl
        · exact le_trans (le_max_left cp e) (ih (max cp e) (pr ++ [(s, e)]) a b hmem)

theorem hlRun_hl_mem (dim : Bool) :
    ∀ (l : List Sp) (cp : Nat) (pr : List (Nat × Nat)) (s e : Nat) (sty : RStyle),
      Emit.hl s e sty ∈ (hlRun dim cp pr l).emitted → (s, e, sty) ∈ l := by
  intro l
  induction l with
  | nil => intro cp pr s e sty h; simp [hlRun] at h
  | cons sp rest ih =>
    intro cp pr s e sty h
    obtain ⟨s0, e0, sty0⟩ := sp
    by_cases hov : isOverlapping s0 e0 pr
    · simp only [hlRun, if_pos hov] at h
      exact List.mem_cons_of_mem _ (ih cp pr s e sty h)
    · simp only [hlRun, if_neg hov] at h
      rcases List.mem_append.mp h with hgap | hrest'
      · by_cases hc : dim ∧ cp < s0
        · simp only [if_pos hc, List.mem_singleton] at hgap
          cases hgap
        · simp [hc] at hgap
      · rcases List.mem_cons.mp hrest' with hhl | hmem
        · cases hhl
          exact List.mem_cons_self _ _
        · exact List.mem_cons_of_mem _ (ih (max cp e0) (pr ++ [(s0, e0)]) s e sty hmem)

theorem hlRun_pairwise :
    ∀ (l : List Sp) (cp : Nat) (pr : List (Nat × Nat)),
      List.Pairwise (fun a b : Sp => a.1 ≤ b.1) l →
      (∀ sp ∈ l, sp.1 ≤ sp.2.1) →
      List.Pairwise gapDisjoint (hlRun true cp pr l).emitted := by
  intro l
  induction l with
  | nil => intro cp pr _ _; simp [hlRun]
  | cons sp rest ih =>
    intro cp pr hsorted hwf
    obtain ⟨s, e, sty⟩ := sp
    have hse : s ≤ e := hwf (s, e, sty) (List.mem_cons_self _ _)
    have hrest : ∀ sp ∈ rest, sp.1 ≤ sp.2.1 := fun sp hsp => hwf sp (List.mem_cons_of_mem _ hsp)
    have hhead : ∀ b ∈ rest, s ≤ b.1 := fun b hb => (List.pairwise_cons.mp hsorted).1 b hb
    have htail : List.Pairwise (fun a b : Sp => a.1 ≤ b.1) rest :=
      (List.pairwise_cons.mp hsorted).2
    by_cases hov : isOverlapping s e pr
    · simp only [hlRun, if_pos hov]
      exact ih cp pr htail hrest
    · simp only [hlRun, if_neg hov]
      set o := hlRun true (max cp e) (pr ++ [(s, e)]) rest with ho
      have recPW : List.Pairwise gapDisjoint o.emitted :=
        ih (max cp e) (pr ++ [(s, e)]) htail hrest
      have recGapLo : ∀ a b : Nat, Emit.gap a b ∈ o.emitted → max cp e ≤ a :=
        fun a b h => hlRun_gap_lo true rest (max cp e) (pr ++ [(s, e)]) a b h
      have recHlMem : ∀ (s' e' : Nat) (sty' : RStyle),
          Emit.hl s' e' sty' ∈ o.emitted → (s', e', sty') ∈ rest :=
        fun s' e' sty' h => hlRun_hl_mem true rest (max cp e) (pr ++ [(s, e)]) s' e' sty' h
      rw [List.pairwise_append]
      refine ⟨?_, ?_, ?_⟩
      · split <;> simp
      · rw [List.pairwise_cons]
        refine ⟨?_, recPW⟩
        intro y hy
        cases y with
        | gap a b =>
          intro _
          exact Or.inl (le_trans (le_max_right cp e) (recGapLo a b hy))
        | hl s' e' sty' =>
          intro hcase
          simp [Emit.isGap] at hcase
      · intro a ha b hb
        have ha' : a = Emit.gap cp s := by
          simp at ha
          exact ha.2
        subst ha'
        rcases List.mem_cons.mp hb with hb1 | hb2
        · subst hb1
          intro _
          exact Or.inl (le_refl s)
        · cases b with
          | gap a' b' =>
            intro _
            refine Or.inl (le_trans (le_trans hse (le_max_right cp e)) (recGapLo a' b' hb2))
          | hl s' e' sty' =>
            intro _
            exact Or.inl (hhead (s', e', sty') (recHlMem s' e' sty' hb2))


theorem sorted_perm_eq_of_antisymm {α : Type} {r : α → α → Prop} :
    ∀ {l₁ l₂ : List α}, l₁.Perm l₂ → List.Sorted r l₁ → List.Sorted r l₂ →
      (∀ a ∈ l₁, ∀ b ∈ l₁, r a b → r b a → a = b) → l₁ = l₂ := by
  intro l₁
  induction l₁ with
  | nil => intro l₂ hp _ _ _; exact (hp.nil_eq).symm ▸ rfl
  | cons a t₁ ih =>
    intro l₂ hp hs₁ hs₂ hanti
    cases l₂ with
    | nil => exact absurd hp.length_eq (by simp)
    | cons b t₂ =>
      by_cases hab : a = b
      · subst hab
        have ht := ih (hp.cons_inv) hs₁.of_cons hs₂.of_cons
          (fun x hx y hy => hanti x (List.mem_cons_of_mem a hx) y (List.mem_cons_of_mem a hy))
        rw [ht]
      · exfalso
        have hb1 : b ∈ a :: t₁ := hp.symm.subset (List.mem_cons_self b t₂)
        have hbt₁ : b ∈ t₁ := by
          cases List.mem_cons.mp hb1 with
          | inl h => exact absurd h.symm hab
          | inr h => exact h
        have ha2 : a ∈ b :: t₂ := hp.subset (List.mem_cons_self a t₁)
        have hat₂ : a ∈ t₂ := by
          cases List.mem_cons.mp ha2 with
          | inl h => exact absurd h hab
          | inr h => exact h
        have rab : r a b := List.rel_of_sorted_cons hs₁ b hbt₁
        have rba : r b a := List.rel_of_sorted_cons hs₂ a hat₂
        exact hab (hanti a (List.mem_cons_self a t₁) b (List.mem_cons_of_mem a hbt₁) rab rba)

/-- C2 (counterexample): with an out-of-bounds `Range` focus the emitted
spans cover offsets past the end of the buffer (offset 4 of the 3-character
buffer `"abc"` with `Range(5, 9)`), and with a backwards `Range(5, 2)` plus
`Range(6, 7)` the compositor emits two overlapping dim gaps — so the claim,
quantified over every focus list, fails. -/
theorem C2_counterexample :
    coveredE (highlightCode "abc".toList
      (collectHighlightRanges "abc".toList [.range ⟨5, 9, RStyle.mk 0 true⟩]) true) 4 ∧
    ¬ (4 < "abc".toList.length) ∧
    ¬ List.Pairwise gapDisjoint (highlightCode "0123456789".toList
      (collectHighlightRanges "0123456789".toList
        [.range ⟨5, 2, RStyle.mk 0 true⟩, .range ⟨6, 7, RStyle.mk 1 true⟩]) true) := by
  refine ⟨by decide, by decide, by decide⟩

/-- C2 (amended): for every buffer and every candidate enumeration whose
spans are well-formed and in-bounds (`start ≤ end ≤ len(buffer)` — true of
every matcher except the unvalidated `Range` passthrough), the emitted span
sequence with `dim_background = true` covers exactly `[0, len(buffer))`,
and no dim gap overlaps an accepted span or another dim gap. -/
theorem C2_dim_cover_partition :
    ∀ (code : List Char) (l : List Sp),
      (∀ sp ∈ l, sp.1 ≤ sp.2.1 ∧ sp.2.1 ≤ code.length) →
      (∀ i, coveredE (applyHighlights code (sortRanges l) true) i ↔ i < code.length) ∧
      List.Pairwise gapDisjoint (applyHighlights code (sortRanges l) true) := by
  intro code l hwf
  have hperm := List.perm_insertionSort rangeLe l
  have hwf1 : ∀ sp ∈ sortRanges l, sp.1 ≤ sp.2.1 :=
    fun sp hsp => (hwf sp (hperm.subset hsp)).1
  have hwf2 : ∀ sp ∈ sortRanges l, sp.2.1 ≤ code.length :=
    fun sp hsp => (hwf sp (hperm.subset hsp)).2
  have hsorted : List.Pairwise (fun a b : Sp => a.1 ≤ b.1) (sortRanges l) := by
    refine (List.sorted_insertionSort rangeLe l).imp ?_
    intro a b hab
    rcases hab with h | ⟨h, _⟩
    · exact le_of_lt h
    · exact le_of_eq h
  set o := hlRun true 0 [] (sortRanges l) with ho
  have hfp_le : o.finalPos ≤ code.length :=
    hlRun_finalPos_le true _ 0 [] _ hwf2 (Nat.zero_le _)
  have happ : applyHighlights code (sortRanges l) true =
      o.emitted ++ (if (true : Bool) ∧ o.finalPos < code.length
        then [Emit.gap o.finalPos code.length] else []) := rfl
  rw [happ]
  constructor
  · intro i
    constructor
    · rintro ⟨x, hx, hlo, hhi⟩
      rcases List.mem_append.mp hx with hx1 | hx2
      · have hxh := hlRun_emitted_hi_le true _ 0 [] hwf1 x hx1
        rw [← ho] at hxh
        omega
      · have hx' : x = Emit.gap o.finalPos code.length := by
          simp at hx2
          exact hx2.2
        subst hx'
        simpa [Emit.hi] using hhi
    · intro hi
      by_cases hif : i < o.finalPos
      · obtain ⟨x, hx, h1, h2⟩ := hlRun_covers _ 0 [] hwf1 i (Nat.zero_le i) hif
        exact ⟨x, List.mem_append_left _ hx, h1, h2⟩
      · push_neg at hif
        have hfl : o.finalPos < code.length := lt_of_le_of_lt hif hi
        refine ⟨Emit.gap o.finalPos code.length, List.mem_append_right _ (by simp [hfl]),
          by simpa [Emit.lo] using hif, by simpa [Emit.hi] using hi⟩
  · rw [List.pairwise_append]
    refine ⟨hlRun_pairwise _ 0 [] hsorted hwf1, by split <;> simp, ?_⟩
    intro a ha b hb
    have hb' : b = Emit.gap o.finalPos code.length := by
      simp at hb
      exact hb.2
    subst hb'
    intro _
    exact Or.inl (hlRun_emitted_hi_le true _ 0 [] hwf1 a ha)

/-- Witness for `C2_dim_cover_partition`: buffer `"abc"` with the single
in-bounds candidate `(1, 2)`. -/
theorem C2_dim_cover_partition_witness :
    (∀ sp ∈ ([(1, 2, RStyle.mk 0 true)] : List Sp),
      sp.1 ≤ sp.2.1 ∧ sp.2.1 ≤ "abc".toList.length) ∧
    ((∀ i, coveredE (applyHighlights "abc".toList
        (sortRanges [(1, 2, RStyle.mk 0 true)]) true) i ↔ i < "abc".toList.length) ∧
      List.Pairwise gapDisjoint (applyHighlights "abc".toList
        (sortRanges [(1, 2, RStyle.mk 0 true)]) true)) :=
  ⟨by decide, C2_dim_cover_partition "abc".toList [(1, 2, RStyle.mk 0 true)] (by decide)⟩

/-- C8 (counterexample): the engine's output depends on the unordered set
iteration order.  For buffer `"a"` with two literal focuses of different
styles matching the same interval `(0, 1)`, the canonical enumeration of
the candidate set paints style `mk 0`, while the reversed (equally
admissible) enumeration paints style `mk 1`. -/
theorem C8_counterexample :
    List.Perm [(0, 1, RStyle.mk 1 true), (0, 1, RStyle.mk 0 true)]
      (collectHighlightRanges "a".toList
        [.literal ⟨"a".toList, RStyle.mk 0 true, false, none⟩,
         .literal ⟨"a".toList, RStyle.mk 1 true, false, none⟩]) ∧
    highlightCode "a".toList (collectHighlightRanges "a".toList
        [.literal ⟨"a".toList, RStyle.mk 0 true, false, none⟩,
         .literal ⟨"a".toList, RStyle.mk 1 true, false, none⟩]) true =
      [Emit.hl 0 1 (RStyle.mk 0 true)] ∧
    highlightCode "a".toList [(0, 1, RStyle.mk 1 true), (0, 1, RStyle.mk 0 true)] true =
      [Emit.hl 0 1 (RStyle.mk 1 true)] ∧
    ([Emit.hl 0 1 (RStyle.mk 0 true)] : List Emit) ≠ [Emit.hl 0 1 (RStyle.mk 1 true)] := by
  refine ⟨by decide, by decide, by decide, by decide⟩

/-- C8 (amended): the engine is a pure function of the buffer, the
candidate enumeration and the dim flag — and its output is independent of
the set-iteration order whenever no two distinct candidates share the same
`(start, end)` interval (the two-part sort key is then injective, so every
enumeration sorts to the same list).  With two equal-interval candidates of
different styles the output genuinely depends on the iteration order
(`C8_counterexample`). -/
theorem C8_deterministic :
    ∀ (code : List Char) (dim : Bool) (l₁ l₂ : List Sp),
      l₁.Perm l₂ →
      (∀ a ∈ l₁, ∀ b ∈ l₁, a.1 = b.1 → a.2.1 = b.2.1 → a = b) →
      applyHighlights code (sortRanges l₁) dim = applyHighlights code (sortRanges l₂) dim := by
  intro code dim l₁ l₂ hperm huniq
  have hs : sortRanges l₁ = sortRanges l₂ := by
    refine sorted_perm_eq_of_antisymm
      ((List.perm_insertionSort rangeLe l₁).trans
        (hperm.trans (List.perm_insertionSort rangeLe l₂).symm))
      (List.sorted_insertionSort rangeLe l₁)
      (List.sorted_insertionSort rangeLe l₂) ?_
    intro a ha b hb hab hba
    have ha' : a ∈ l₁ := (List.perm_insertionSort rangeLe l₁).subset ha
    have hb' : b ∈ l₁ := (List.perm_insertionSort rangeLe l₁).subset hb
    rcases hab with h1 | ⟨h1, h1'⟩ <;> rcases hba with h2 | ⟨h2, h2'⟩
    · omega
    · omega
    · omega
    · exact huniq a ha' b hb' h1 (by omega)
  rw [hs]

/-- Witness for `C8_deterministic`: two enumerations of a candidate set
with pairwise distinct intervals produce the same output. -/
theorem C8_deterministic_witness :
    List.Perm [(0, 1, RStyle.mk 0 true), (2, 3, RStyle.mk 1 true)]
      [(2, 3, RStyle.mk 1 true), (0, 1, RStyle.mk 0 true)] ∧
    (∀ a ∈ ([(0, 1, RStyle.mk 0 true), (2, 3, RStyle.mk 1 true)] : List Sp),
      ∀ b ∈ ([(0, 1, RStyle.mk 0 true), (2, 3, RStyle.mk 1 true)] : List Sp),
        a.1 = b.1 → a.2.1 = b.2.1 → a = b) ∧
    applyHighlights "abc".toList
        (sortRanges [(0, 1, RStyle.mk 0 true), (2, 3, RStyle.mk 1 true)]) true =
      applyHighlights "abc".toList
        (sortRanges [(2, 3, RStyle.mk 1 true), (0, 1, RStyle.mk 0 true)]) true :=
  ⟨by decide, by decide,
    C8_deterministic "abc".toList true _ _ (by decide) (by decide)⟩

/-! ### Generic list index helpers -/

theorem getD_drop_eq {α : Type} (d : α) :
    ∀ (n : Nat) (l : List α) (k : Nat), (l.drop n).getD k d = l.getD (n + k) d := by
  intro n
  induction n with
  | zero => intro l k; simp
  | succ n ih =>
    intro l k
    cases l with
    | nil => simp
    | cons a t =>
      rw [List.drop_succ_cons, ih t k]
      have h : n + 1 + k = (n + k) + 1 := by omega
      rw [h, List.getD_cons_succ]

theorem getD_append_left_my {α : Type} (d : α) :
    ∀ (Q R : List α) (k : Nat), k < Q.length → (Q ++ R).getD k d = Q.getD k d := by
  intro Q
  induction Q with
  | nil => intro R k hk; simp at hk
  | cons a t ih =>
    intro R k hk
    cases k with
    | zero => simp
    | succ k' =>
      simp only [List.cons_append, List.getD_cons_succ]
      exact ih R k' (by simpa using hk)

theorem getD_append_at {α : Type} (d c : α) :
    ∀ (Q R : List α), (Q ++ c :: R).getD Q.length d = c := by
  intro Q
  induction Q with
  | nil => intro R; simp
  | cons a t ih =>
    intro R
    simp only [List.cons_append, List.length_cons, List.getD_cons_succ]
    exact ih R

theorem drop_append_my {α : Type} :
    ∀ (Q R : List α) (k : Nat), (Q ++ R).drop (Q.length + k) = R.drop k := by
  intro Q
  induction Q with
  | nil => intro R k; simp
  | cons a t ih =>
    intro R k
    simp only [List.cons_append, List.length_cons]
    have h : t.length + 1 + k = (t.length + k) + 1 := by omega
    rw [h, List.drop_succ_cons]
    exact ih R k

theorem endsWithNl_exists {l : List Char} (h : endsWithNl l = true) :
    ∃ l', l = l' ++ ['\n'] := by
  induction l with
  | nil => simp [endsWithNl] at h
  | cons a t ih =>
    cases t with
    | nil =>
      simp only [endsWithNl, List.getLast?_singleton, beq_iff_eq, Option.some.injEq] at h
      exact ⟨[], by rw [h]; rfl⟩
    | cons b t' =>
      have h' : endsWithNl (b :: t') = true := by
        simpa [endsWithNl, List.getLast?_cons_cons] using h
      obtain ⟨l', hl'⟩ := ih h'
      exact ⟨a :: l', by rw [hl']; rfl⟩

/-! ### Structure of `splitKeep` and `splitNl` -/

theorem splitKeep_flatten : ∀ cs : List Char, (splitKeep cs).flatten = cs := by
  intro cs
  induction cs with
  | nil => simp [splitKeep]
  | cons c rest ih =>
    by_cases hc : c = '\n'
    · simp only [splitKeep, if_pos hc, List.flatten_cons]
      rw [ih, hc]
      rfl
    · simp only [splitKeep, if_neg hc]
      cases h : splitKeep rest with
      | nil =>
        rw [h] at ih
        simp only [List.flatten_nil] at ih
        simp [← ih]
      | cons p ps =>
        rw [h] at ih
        simp only [List.flatten_cons] at ih ⊢
        rw [List.cons_append, ih]

theorem joinNl_splitNl : ∀ cs : List Char, joinNl (splitNl cs) = cs := by
  intro cs
  induction cs with
  | nil => simp [splitNl, joinNl]
  | cons c rest ih =>
    by_cases hc : c = '\n'
    · simp only [splitNl, if_pos hc]
      cases h : splitNl rest with
      | nil => exact absurd h (splitNl_ne_nil rest)
      | cons p ps =>
        rw [h] at ih
        rw [show joinNl ([] :: p :: ps) = '\n' :: joinNl (p :: ps) from rfl, ih, hc]
    · simp only [splitNl, if_neg hc]
      cases h : splitNl rest with
      | nil => exact absurd h (splitNl_ne_nil rest)
      | cons p ps =>
        rw [h] at ih
        cases ps with
        | nil =>
          simp only [joinNl] at ih ⊢
          rw [ih]
        | cons q qs =>
          simp only [joinNl] at ih ⊢
          rw [List.cons_append, ih]

theorem splitNl_no_newline : ∀ (cs : List Char) (p : List Char), p ∈ splitNl cs → '\n' ∉ p := by
  intro cs
  induction cs with
  | nil =>
    intro p hp
    simp only [splitNl, List.mem_singleton] at hp
    subst hp
    simp
  | cons c rest ih =>
    intro p hp
    by_cases hc : c = '\n'
    · simp only [splitNl, if_pos hc] at hp
      rcases List.mem_cons.mp hp with h | h
      · subst h; simp
      · exact ih p h
    · simp only [splitNl, if_neg hc] at hp
      cases h : splitNl rest with
      | nil => exact absurd h (splitNl_ne_nil rest)
      | cons q qs =>
        rw [h] at hp
        rcases List.mem_cons.mp hp with h1 | h1
        · subst h1
          intro habs
          rcases List.mem_cons.mp habs with h2 | h2
          · exact hc h2.symm
          · exact ih q (by rw [h]; exact List.mem_cons_self _ _) h2
        · exact ih p (by rw [h]; exact List.mem_cons_of_mem _ h1)

theorem nlStart_zero (lines : List (List Char)) : nlStart lines 0 = 0 := by
  simp [nlStart]

theorem nlStart_cons_succ (p : List Char) (rest : List (List Char)) (j : Nat) :
    nlStart (p :: rest) (j + 1) = (p.length + 1) + nlStart rest j := by
  simp [nlStart, List.take_succ_cons]

theorem joinNl_cons_append (p : List Char) (ps : List (List Char)) :
    ∃ t, joinNl (p :: ps) = p ++ t := by
  cases ps with
  | nil => exact ⟨[], by simp [joinNl]⟩
  | cons q qs => exact ⟨'\n' :: joinNl (q :: qs), rfl⟩

theorem joinNl_drop :
    ∀ (j : Nat) (lines : List (List Char)), j < lines.length →
      (joinNl lines).drop (nlStart lines j) = joinNl (lines.drop j) := by
  intro j
  induction j with
  | zero => intro lines _; simp [nlStart_zero]
  | succ j ih =>
    intro lines hj
    cases lines with
    | nil => simp at hj
    | cons p rest =>
      cases rest with
      | nil => simp at hj
      | cons q rs =>
        rw [nlStart_cons_succ, List.drop_succ_cons]
        rw [show joinNl (p :: q :: rs) = (p ++ ['\n']) ++ joinNl (q :: rs) by
          simp [joinNl]]
        rw [show p.length + 1 + nlStart (q :: rs) j =
          (p ++ ['\n']).length + nlStart (q :: rs) j by simp]
        rw [drop_append_my]
        exact ih (q :: rs) (by simpa using hj)

theorem splitNl_segment (cs : List Char) (j k : Nat) (hj : j < (splitNl cs).length)
    (hk : k < ((splitNl cs).getD j []).length) :
    cs.getD (nlStart (splitNl cs) j + k) 'x' = ((splitNl cs).getD j []).getD k 'x' := by
  have hgd : cs.getD (nlStart (splitNl cs) j + k) 'x' =
      (cs.drop (nlStart (splitNl cs) j)).getD k 'x' :=
    (getD_drop_eq 'x' _ cs k).symm
  have hdrop : cs.drop (nlStart (splitNl cs) j) = joinNl ((splitNl cs).drop j) := by
    have h0 := joinNl_drop j (splitNl cs) hj
    rwa [joinNl_splitNl cs] at h0
  rw [hgd, hdrop]
  have hdj : (splitNl cs).drop j = ((splitNl cs).getD j []) :: (splitNl cs).drop (j + 1) := by
    rw [List.drop_eq_getElem_cons hj, List.getD_eq_getElem _ _ hj]
  rw [hdj]
  obtain ⟨t, ht⟩ := joinNl_cons_append ((splitNl cs).getD j []) ((splitNl cs).drop (j + 1))
  rw [ht]
  exact getD_append_left_my 'x' _ t k hk

theorem take_pred_append {α : Type} (L : List α) (d : α) (b : Nat) (hb1 : 1 ≤ b)
    (hb : b ≤ L.length) : L.take b = L.take (b - 1) ++ [L.getD (b - 1) d] := by
  obtain ⟨b', rfl⟩ : ∃ b', b = b' + 1 := ⟨b - 1, by omega⟩
  simp only [Nat.add_sub_cancel]
  rw [List.take_succ, List.getElem?_eq_getElem (by omega : b' < L.length),
    List.getD_eq_getElem _ _ (by omega : b' < L.length)]
  rfl

/-- The character just before offset `keepStart text b` is the `'\n'`
terminator of kept line `b - 1`, whenever that line is terminated. -/
theorem keepStart_terminator (text : List Char) (b : Nat) (hb1 : 1 ≤ b)
    (hb2 : b ≤ (splitKeep text).length)
    (hnl : endsWithNl ((splitKeep text).getD (b - 1) []) = true) :
    1 ≤ keepStart text b ∧ keepStart text b - 1 < text.length ∧
      text.getD (keepStart text b - 1) 'x' = '\n' := by
  have htake := take_pred_append (splitKeep text) ([] : List Char) b hb1 hb2
  obtain ⟨l', hl'⟩ := endsWithNl_exists hnl
  have hPlen : (((splitKeep text).take b).flatten).length = keepStart text b := by
    rw [List.length_flatten]; rfl
  have htext : text = ((splitKeep text).take b).flatten ++
      ((splitKeep text).drop b).flatten := by
    have h1 := splitKeep_flatten text
    have h2 : ((splitKeep text).take b ++ (splitKeep text).drop b).flatten =
        ((splitKeep text).take b).flatten ++ ((splitKeep text).drop b).flatten :=
      List.flatten_append _ _
    rw [List.take_append_drop] at h2
    rw [← h2, h1]
  have hPQ : ((splitKeep text).take b).flatten =
      (((splitKeep text).take (b - 1)).flatten ++ l') ++ ['\n'] := by
    rw [htake, List.flatten_append, hl']
    simp
  have hstart : keepStart text b =
      (((splitKeep text).take (b - 1)).flatten ++ l').length + 1 := by
    have h0 := hPlen
    rw [hPQ] at h0
    simp only [List.length_append, List.length_cons, List.length_nil] at h0 ⊢
    omega
  have htext2 : text = (((splitKeep text).take (b - 1)).flatten ++ l') ++
      '\n' :: ((splitKeep text).drop b).flatten := by
    conv_lhs => rw [htext]
    rw [hPQ]
    simp
  have hlen : text.length = (((splitKeep text).take (b - 1)).flatten ++ l').length + 1 +
      ((splitKeep text).drop b).flatten.length := by
    conv_lhs => rw [htext2]
    simp only [List.length_append, List.length_cons]
    omega
  refine ⟨by omega, by omega, ?_⟩
  have h1 : keepStart text b - 1 =
      (((splitKeep text).take (b - 1)).flatten ++ l').length := by omega
  rw [h1]
  have hfin := getD_append_at 'x' '\n'
    (((splitKeep text).take (b - 1)).flatten ++ l') (((splitKeep text).drop b).flatten)
  rw [← htext2] at hfin
  exact hfin

/-! ### Membership structure of `lineWindows` -/

theorem lineWindows_mem {ml : List Char → Bool} {before after : Nat} {text : List Char}
    {s e : Nat} (h : (s, e) ∈ lineWindows ml before after text) :
    ∃ i, i < (splitKeep text).length ∧ ml ((splitKeep text).getD i []) = true ∧
      s = keepStart text (i - before) ∧
      e = keepStart text (min (splitKeep text).length (i + after + 1)) := by
  unfold lineWindows at h
  obtain ⟨i, hi, hfi⟩ := List.mem_filterMap.mp h
  rw [List.mem_range] at hi
  by_cases hml : ml ((splitKeep text).getD i []) = true
  · rw [if_pos hml] at hfi
    have := Option.some.inj hfi
    have h1 := congrArg Prod.fst this
    have h2 := congrArg Prod.snd this
    exact ⟨i, hi, hml, h1.symm, h2.symm⟩
  · rw [if_neg hml] at hfi
    exact absurd hfi (by simp)

theorem lineContainingMatches_subset {ml : List Char → Bool} {before after : Nat}
    {mi : Option Nat} {text : List Char} :
    ∀ se ∈ lineContainingMatches ml before after mi text,
      se ∈ lineWindows ml before after text := by
  intro se h
  unfold lineContainingMatches at h
  cases mi with
  | none => exact h
  | some k =>
    by_cases hk : k < (lineWindows ml before after text).length
    · simp only [if_pos hk, List.mem_singleton] at h
      subst h
      rw [List.getD_eq_getElem _ _ hk]
      exact List.getElem_mem hk
    · simp only [if_neg hk] at h
      simp at h

/-- C10: every window span of `_get_line_containing_matches` (literal or
regex variant — the per-line test is abstracted as `matchLine`) starts and
ends at offsets summed over lines split with terminators kept, so the
window ends just past its last line including that line's trailing newline:
when the window's last line is `'\n'`-terminated, the character at `e - 1`
is that `'\n'`.  By contrast, a `Line` focus span never covers a `'\n'`
character.  (`noExoticNl` restricts to buffers whose only line terminator
is `'\n'`, where `splitKeep` agrees with Python `splitlines`.) -/
theorem C10_window_includes_newline :
    (∀ (ml : List Char → Bool) (before after : Nat) (mi : Option Nat) (text : List Char)
        (s e : Nat), noExoticNl text →
      (s, e) ∈ lineContainingMatches ml before after mi text →
      ∃ i, i < (splitKeep text).length ∧ ml ((splitKeep text).getD i []) = true ∧
        s = keepStart text (i - before) ∧
        e = keepStart text (min (splitKeep text).length (i + after + 1)) ∧
        (endsWithNl ((splitKeep text).getD
            (min (splitKeep text).length (i + after + 1) - 1) []) = true →
          1 ≤ e ∧ e - 1 < text.length ∧ text.getD (e - 1) 'x' = '\n')) ∧
    (∀ (code : List Char) (f : LineFocus) (sp : Sp), sp ∈ collectLineRanges code f →
      ∀ k, sp.1 ≤ k → k < sp.2.1 → code.getD k 'x' ≠ '\n') := by
  constructor
  · intro ml before after mi text s e _ hmem
    obtain ⟨i, hi, hml, hs, he⟩ := lineWindows_mem (lineContainingMatches_subset _ hmem)
    refine ⟨i, hi, hml, hs, he, ?_⟩
    intro hnl
    have hb1 : 1 ≤ min (splitKeep text).length (i + after + 1) := by omega
    have hb2 : min (splitKeep text).length (i + after + 1) ≤ (splitKeep text).length :=
      min_le_left _ _
    obtain ⟨h1, h2, h3⟩ := keepStart_terminator text _ hb1 hb2 hnl
    exact ⟨he ▸ h1, he ▸ h2, he ▸ h3⟩
  · intro code f sp hsp k hk1 hk2
    unfold collectLineRanges at hsp
    by_cases h : f.lineNumber < (splitNl code).length
    · simp only [h, if_pos, List.mem_singleton] at hsp
      subst hsp
      simp only at hk1 hk2
      have hm : k - nlStart (splitNl code) f.lineNumber <
          ((splitNl code).getD f.lineNumber []).length := by omega
      have hkeq : nlStart (splitNl code) f.lineNumber +
          (k - nlStart (splitNl code) f.lineNumber) = k := by omega
      have hseg := splitNl_segment code f.lineNumber
        (k - nlStart (splitNl code) f.lineNumber) h hm
      rw [hkeq] at hseg
      rw [hseg]
      intro habs
      have hmem' : '\n' ∈ (splitNl code).getD f.lineNumber [] := by
        rw [← habs]
        rw [List.getD_eq_getElem _ _ hm]
        exact List.getElem_mem _
      exact splitNl_no_newline code _ (by
        rw [List.getD_eq_getElem _ _ h]
        exact List.getElem_mem h) hmem'
    · simp [h] at hsp

/-- Witness for `C10_window_includes_newline`: buffer `"ab\ncd\nef"` with a
window matching line 1 (`"cd\n"`), no context: the window is `(3, 6)` and
the character at offset 5 is the trailing `'\n'` of `"cd\n"`; and the
`Line(1)` span `(3, 5)` covers only `'c'` and `'d'`. -/
theorem C10_window_includes_newline_witness :
    noExoticNl "ab\ncd\nef".toList ∧
    ((3, 6) ∈ lineContainingMatches (fun l => l.contains 'c') 0 0 none "ab\ncd\nef".toList) ∧
    (∃ i, i < (splitKeep "ab\ncd\nef".toList).length ∧
      (fun l => l.contains 'c') ((splitKeep "ab\ncd\nef".toList).getD i []) = true ∧
      3 = keepStart "ab\ncd\nef".toList (i - 0) ∧
      6 = keepStart "ab\ncd\nef".toList
        (min (splitKeep "ab\ncd\nef".toList).length (i + 0 + 1)) ∧
      (endsWithNl ((splitKeep "ab\ncd\nef".toList).getD
          (min (splitKeep "ab\ncd\nef".toList).length (i + 0 + 1) - 1) []) = true →
        1 ≤ 6 ∧ 6 - 1 < "ab\ncd\nef".toList.length ∧
          "ab\ncd\nef".toList.getD (6 - 1) 'x' = '\n')) ∧
    ((3, 5, RStyle.mk 0 true) ∈ collectLineRanges "ab\ncd\nef".toList ⟨1, RStyle.mk 0 true⟩ ∧
      3 ≤ 4 ∧ 4 < 5 ∧ "ab\ncd\nef".toList.getD 4 'x' ≠ '\n') :=
  ⟨by decide, by decide,
    C10_window_includes_newline.1 (fun l => l.contains 'c') 0 0 none "ab\ncd\nef".toList 3 6
      (by decide) (by decide),
    by decide, by decide, by decide,
    C10_window_includes_newline.2 "ab\ncd\nef".toList ⟨1, RStyle.mk 0 true⟩
      (3, 5, RStyle.mk 0 true) (by decide) 4 (by decide) (by decide)⟩

end Tuitorial
